import Mathlib

/-!
The rope builder `createRope` of rope_c/main.c.

A shallow embedding of `src/rope_c/main.c`.

* C `int` values are `Int`; an operation whose mathematical result leaves
  `[INT_MIN, INT_MAX]` is signed overflow and stops the run with `Fault.overflow`.
  `/` is C's truncating division (`Int.tdiv`).
* A pointer to a `Rope` is `Option Nat`: `none` is `NULL`, `some k` is the address of the
  local `tmp` of the `k`-th activation of `createRope`.  Every activation gets an address of
  its own (objects, not stack slots, are what pointers designate).
* The machine state is the list of activation records made so far (in call order) together
  with the fault, if any, that stopped the run.  A record stays in the list after its call
  has returned, so that the nodes a run created can be inspected.
-/

namespace RopeC

/-- The constant `#define LEAF_LEN 2`. -/
def LEAF_LEN : Int := 2

/-- Least value of a 32-bit C `int`. -/
def INT_MIN : Int := -2147483648

/-- Greatest value of a 32-bit C `int`. -/
def INT_MAX : Int := 2147483647

/-- C `x - y` on `int`: `none` on signed overflow. -/
def isub (x y : Int) : Option Int :=
  if INT_MIN ≤ x - y ∧ x - y ≤ INT_MAX then some (x - y) else none

/-- C `x + y` on `int`: `none` on signed overflow. -/
def iadd (x y : Int) : Option Int :=
  if INT_MIN ≤ x + y ∧ x + y ≤ INT_MAX then some (x + y) else none

/-- C `x / 2` on `int`: division truncating toward zero. -/
def idiv2 (x : Int) : Int := Int.tdiv x 2

/-- Reasons a run stops early. -/
inductive Fault where
  /-- a write of `n > 0` bytes through a null pointer -/
  | nullWrite (n : Nat)
  /-- a write past the end of the destination buffer -/
  | outOfBounds
  /-- signed overflow in `int` arithmetic -/
  | overflow
  /-- the recursion budget of the embedding was used up (shown not to happen) -/
  | fuel
  deriving DecidableEq, Repr

/-- The node type `struct Rope`.  `str` is `NULL` (`none`) or points to a buffer, given by
its bytes; a byte is `none` when its value is not a character of the text. -/
structure Rope where
  left : Option Nat
  right : Option Nat
  parent : Option Nat
  str : Option (List (Option Char))
  lCount : Int
  deriving DecidableEq, Repr

/-- The activation record of one call `createRope(ro, par, a, l, r)`: its parameters (`a` is
the same in every call and is left out) and its local `tmp`, as they are when the call
stops. -/
structure Frame where
  ro : Option Nat
  par : Option Nat
  l : Int
  r : Int
  tmp : Rope
  deriving DecidableEq, Repr

/-- Machine state: every activation record so far, by address, and the fault that stopped
the run. -/
structure Machine where
  frames : List Frame
  fault : Option Fault
  deriving DecidableEq, Repr

/-- The state before any call. -/
def init : Machine := ⟨[], none⟩

/-- The call `memcpy(dest, &a, n)` of line 34, as far as `dest` is concerned.  The source is
the address of the pointer parameter `a`, so the bytes copied are the representation of
that pointer and what follows it, not characters of the text: they are written as `none`.
A copy of zero bytes writes nothing. -/
def memcpy (dest : Option (List (Option Char))) (n : Nat) :
    Except Fault (Option (List (Option Char))) :=
  if n = 0 then Except.ok dest
  else
    match dest with
    | none => Except.error (Fault.nullWrite n)
    | some buf =>
      if n ≤ buf.length then Except.ok (some (List.replicate n none ++ buf.drop n))
      else Except.error Fault.outOfBounds

/-- The body of `createRope` (lines 21-36), with a recursion budget.

`Rope tmp = {0}; tmp.parent = par;` makes the record; the parameter `ro` is a copy, so
`ro = &tmp` changes the record's `ro` only.  `ro->left` and `ro->right` are read from `tmp`,
which no callee writes to. -/
def createRopeAux : Nat → Option Nat → Option Nat → List Char → Int → Int → Machine → Machine
  | 0, _, _, _, _, _, s => ⟨s.frames, some Fault.fuel⟩
  | fuel + 1, ro, par, a, l, r, s =>
    let self := s.frames.length
    match isub r l with
    | none => ⟨s.frames ++ [⟨ro, par, l, r, ⟨none, none, par, none, 0⟩⟩], some Fault.overflow⟩
    | some w =>
      if LEAF_LEN < w then
        let tmp : Rope := ⟨none, none, par, none, idiv2 w⟩
        let ro := some self
        match iadd l r with
        | none => ⟨s.frames ++ [⟨ro, par, l, r, tmp⟩], some Fault.overflow⟩
        | some sum =>
          let m := idiv2 sum
          let s1 := createRopeAux fuel tmp.left ro a l m ⟨s.frames ++ [⟨ro, par, l, r, tmp⟩], s.fault⟩
          match s1.fault with
          | some _ => s1
          | none => createRopeAux fuel tmp.right ro a l m s1
      else
        let ro := some self
        let tmp : Rope := ⟨none, none, par, none, idiv2 w⟩
        match memcpy tmp.str a.length with
        | Except.error e => ⟨s.frames ++ [⟨ro, par, l, r, tmp⟩], some e⟩
        | Except.ok str =>
          ⟨s.frames ++ [⟨ro, par, l, r, ⟨tmp.left, tmp.right, tmp.parent, str, tmp.lCount⟩⟩], s.fault⟩

/-- The function `createRope(ro, par, a, l, r)`: the body run with a budget that the
recursion never uses up (`createRope_fuel`). -/
def createRope (ro par : Option Nat) (a : List Char) (l r : Int) (s : Machine) : Machine :=
  createRopeAux ((r - l).toNat + 1) ro par a l r s

/-- What `main` leaves behind: its variable `root1` and the machine state. -/
structure MainResult where
  root1 : Option Nat
  machine : Machine
  deriving DecidableEq, Repr

/-- The array `a` of `main`, without its terminating NUL. -/
def mainText : List Char := "Hi This is geeksforgeeks. ".toList

/-- The function `main` (lines 38-44): `n1 = sizeof(a) / sizeof(a[0])` counts the NUL, and
`root1` is passed by value. -/
def main : MainResult :=
  let root1 : Option Nat := none
  let a := mainText
  let n1 : Int := (a.length : Int) + 1
  ⟨root1, createRope root1 none a 0 (n1 - 1) init⟩


/-- Frame `f` is the record of a recursive call made (lines 28-30) by the activation at
address `p`, whose record is `g`: the caller took the branch `(r - l) > LEAF_LEN`, passed
itself as `par`, its own `l` as lower bound and `m = (l + r) / 2` as upper bound. -/
def CalledBy (g : Frame) (p : Nat) (f : Frame) : Prop :=
  f.par = some p ∧ isub g.r g.l = some (g.r - g.l) ∧ LEAF_LEN < g.r - g.l ∧
    iadd g.l g.r = some (g.l + g.r) ∧ f.l = g.l ∧ f.r = idiv2 (g.l + g.r)

instance (g : Frame) (p : Nat) (f : Frame) : Decidable (CalledBy g p f) := by
  unfold CalledBy
  exact inferInstance

/-- What every record holds when its call stops: `left`, `right` and `str` are still the
`NULL` of `Rope tmp = {0}`, `parent` is the argument `par`, and `lCount` is `(r - l) / 2`
(or still `0` when `r - l` overflowed). -/
def FrameOK (f : Frame) : Prop :=
  f.tmp.left = none ∧ f.tmp.right = none ∧ f.tmp.str = none ∧ f.tmp.parent = f.par ∧
    f.tmp.lCount = (match isub f.r f.l with
      | some w => idiv2 w
      | none => 0)

instance (f : Frame) : Decidable (FrameOK f) := by
  unfold FrameOK
  exact inferInstance

/-- The records of `fs` from address `base` on are those of one call
`createRope(_, par, a, l, r)`: the one at `base` is the call itself, every later one was
called by an earlier one. -/
def CallTree (base : Nat) (par : Option Nat) (l r : Int) (fs : List Frame) : Prop :=
  ∀ k f, fs[k]? = some f → base ≤ k →
    FrameOK f ∧
      ((k = base ∧ f.par = par ∧ f.l = l ∧ f.r = r) ∨
        ∃ p g, base ≤ p ∧ p < k ∧ fs[p]? = some g ∧ CalledBy g p f)

/-- The records of `fs` from address `base` on belong to calls that the activation at
address `p` made with the range `(l, m)`, or to calls below those. -/
def Forest (base p : Nat) (l m : Int) (fs : List Frame) : Prop :=
  ∀ k f, fs[k]? = some f → base ≤ k →
    FrameOK f ∧
      ((f.par = some p ∧ f.l = l ∧ f.r = m) ∨
        ∃ q g, base ≤ q ∧ q < k ∧ fs[q]? = some g ∧ CalledBy g q f)

/-- Depth of the record at address `k`: the number of `par` links from it up to the record of
a call made with `par = NULL`, following at most `fuel` links. -/
def depth (fs : List Frame) : Nat → Nat → Nat
  | 0, _ => 0
  | fuel + 1, k =>
    match fs[k]? with
    | none => 0
    | some f =>
      match f.par with
      | none => 0
      | some p => depth fs fuel p + 1

/-- Height of the tree of calls: the greatest depth of a record (the longest root-to-leaf
edge count).  A record's `par` is an earlier record, so `fs.length` links are enough. -/
def height (fs : List Frame) : Nat :=
  ((List.range fs.length).map (depth fs fs.length)).foldr max 0

/-- The record was made by the branch `(r - l) > LEAF_LEN` (lines 26-30), the one that
builds an internal node; the other records are leaves (lines 32-34). -/
def isInternal (f : Frame) : Bool := decide (LEAF_LEN < f.r - f.l)

/-- The flattener `collect` of the specification on the stored structure: from the node
that `p` designates, a node with a text emits it, any other node emits what its `left`
reference gives, then what its `right` reference gives; a null reference gives nothing. -/
def collect (fs : List Frame) : Nat → Option Nat → List (Option Char)
  | 0, _ => []
  | _ + 1, none => []
  | fuel + 1, some k =>
    match fs[k]? with
    | none => []
    | some f =>
      match f.tmp.str with
      | some text => text
      | none => collect fs fuel f.tmp.left ++ collect fs fuel f.tmp.right

/-- The function `totalLength` of the specification over the memoized fields: a leaf's
stored length `lCount`; for an internal node `lCount` plus `totalLength` of what its
`right` reference designates.  There is no value for a null reference. -/
def totalLength (fs : List Frame) : Nat → Option Nat → Option Int
  | 0, _ => none
  | _ + 1, none => none
  | fuel + 1, some k =>
    match fs[k]? with
    | none => none
    | some f =>
      if isInternal f then (totalLength fs fuel f.tmp.right).map (fun t => f.tmp.lCount + t)
      else some f.tmp.lCount

/-- The ranges `(l, r)` of the calls made by the activation at address `p`, in call order. -/
def rangesCalledBy (fs : List Frame) (p : Nat) : List (Int × Int) :=
  (fs.filter (fun f => decide (f.par = some p))).map (fun f => (f.l, f.r))

/-! The operations of the specification that `main.c` does not have

`main.c` defines `createRope` and `main` only: there is no `split`, `concat`, `collect` or
`length` in it.  The definitions below follow sections 3 and 4 of the specification. -/

/-- Modelled from the spec: the node type of section 3, missing from `main.c` (which has
only the untagged `struct Rope`): `Leaf { text, length }` or
`Internal { left, right, leftWeight, height }`. -/
inductive SpecNode where
  | leaf (text : List Char) (length : Nat)
  | internal (left right : SpecNode) (leftWeight height : Nat)
  deriving DecidableEq, Repr

/-- Modelled from the spec: `totalLength(node)` of section 4.1, missing from `main.c`: for a
Leaf its `length`, for an Internal `leftWeight + totalLength(right)`. -/
def specTotalLength : SpecNode → Nat
  | SpecNode.leaf _ n => n
  | SpecNode.internal _ r w _ => w + specTotalLength r

/-- Modelled from the spec: the flattener `collect` of section 4.3, missing from `main.c`:
a Leaf emits its text, an Internal flattens left, then right. -/
def specCollect : SpecNode → List Char
  | SpecNode.leaf t _ => t
  | SpecNode.internal l r _ _ => specCollect l ++ specCollect r

/-- Modelled from the spec: the `height` of a node (section 3), missing from `main.c`: the
stored field of an Internal, `0` for a Leaf. -/
def specHeight : SpecNode → Nat
  | SpecNode.leaf _ _ => 0
  | SpecNode.internal _ _ _ h => h

/-- Modelled from the spec: the node invariants of section 3, missing from `main.c`: a
Leaf's `length` is the size of its text, and (I1) every Internal has
`leftWeight == totalLength(left)`. -/
def SpecWellFormed : SpecNode → Prop
  | SpecNode.leaf t n => n = t.length
  | SpecNode.internal l r w _ => w = specTotalLength l ∧ SpecWellFormed l ∧ SpecWellFormed r

/-- Modelled from the spec: the type `Rope` of section 3, missing from `main.c`: a root node
and the cached total `length`. -/
structure SpecRope where
  root : SpecNode
  length : Nat
  deriving DecidableEq, Repr

/-- Modelled from the spec: a valid rope (section 3), missing from `main.c`: its nodes are
well formed and (I2) `rope.length == totalLength(root)`. -/
def SpecValid (r : SpecRope) : Prop :=
  SpecWellFormed r.root ∧ r.length = specTotalLength r.root

/-- Modelled from the spec: the rope whose root is a given subtree, with its cached length
(I2); missing from `main.c`. -/
def specRopeOf (n : SpecNode) : SpecRope := ⟨n, specTotalLength n⟩

/-- Modelled from the spec: the joiner `concat(left, right)` of section 4.5, missing from
`main.c`.  An empty operand gives the other one unchanged; otherwise a new Internal with
`leftWeight = left.length` and `height = 1 + max` of the roots' heights; with the optional
small-leaf fusion on (`fuse`), two Leaves of combined length `<= LEAF_MAX` become one
Leaf. -/
def specConcat (leafMax : Nat) (fuse : Bool) (a b : SpecRope) : SpecRope :=
  if a.length = 0 then b
  else if b.length = 0 then a
  else
    match fuse, a.root, b.root with
    | true, SpecNode.leaf s n, SpecNode.leaf t m =>
      if n + m ≤ leafMax then ⟨SpecNode.leaf (s ++ t) (n + m), a.length + b.length⟩
      else
        ⟨SpecNode.internal a.root b.root a.length (1 + max (specHeight a.root) (specHeight b.root)),
          a.length + b.length⟩
    | _, _, _ =>
      ⟨SpecNode.internal a.root b.root a.length (1 + max (specHeight a.root) (specHeight b.root)),
        a.length + b.length⟩

/-- Modelled from the spec: the I3 cleanup of sections 3 and 4.4, missing from `main.c`: an
internal root with a subtree of zero length is replaced by the other subtree, or by the
empty leaf when both are empty. -/
def specCollapse (r : SpecRope) : SpecRope :=
  match r.root with
  | SpecNode.leaf _ _ => r
  | SpecNode.internal lt rt _ _ =>
    if specTotalLength lt = 0 ∧ specTotalLength rt = 0 then ⟨SpecNode.leaf [] 0, 0⟩
    else if specTotalLength lt = 0 then specRopeOf rt
    else if specTotalLength rt = 0 then specRopeOf lt
    else r

/-- Modelled from the spec: the recursion of `split` (section 4.4), missing from `main.c`.
A Leaf with text `t` gives the leaves `t[0:i]` and `t[i:]`; an Internal with `i <= leftWeight`
splits `left` into `(ll, lr)` and gives `ll` and `join(lr, right)`, otherwise it splits
`right` at `i - leftWeight` into `(rl, rr)` and gives `join(left, rl)` and `rr`; the I3
cleanup is applied to the results. -/
def specSplitNode (leafMax : Nat) (fuse : Bool) : SpecNode → Nat → SpecRope × SpecRope
  | SpecNode.leaf t _, i =>
    (specRopeOf (SpecNode.leaf (t.take i) (t.take i).length),
      specRopeOf (SpecNode.leaf (t.drop i) (t.drop i).length))
  | SpecNode.internal lt rt w _, i =>
    if i ≤ w then
      let p := specSplitNode leafMax fuse lt i
      (specCollapse p.1, specCollapse (specConcat leafMax fuse p.2 (specRopeOf rt)))
    else
      let p := specSplitNode leafMax fuse rt (i - w)
      (specCollapse (specConcat leafMax fuse (specRopeOf lt) p.1), specCollapse p.2)

/-- Modelled from the spec: the error kind of section 7, missing from `main.c`. -/
inductive SpecError where
  | indexOutOfRange
  deriving DecidableEq, Repr

/-- Modelled from the spec: the operation `split(rope, i)` of sections 4.4 and 6, missing
from `main.c`: it fails with `IndexOutOfRange` unless `0 <= i <= rope.length`. -/
def specSplit (leafMax : Nat) (fuse : Bool) (r : SpecRope) (i : Int) :
    Except SpecError (SpecRope × SpecRope) :=
  if 0 ≤ i ∧ i ≤ (r.length : Int) then Except.ok (specSplitNode leafMax fuse r.root i.toNat)
  else Except.error SpecError.indexOutOfRange

/-! Shared lemmas -/

theorem getElem?_snoc_ge {α : Type} {xs : List α} {x f : α} {k : Nat}
    (h : (xs ++ [x])[k]? = some f) (hk : xs.length ≤ k) : k = xs.length ∧ f = x := by
  rw [List.getElem?_append_right hk] at h
  rcases Nat.eq_zero_or_pos (k - xs.length) with h0 | h0
  · rw [h0] at h
    simp at h
    exact ⟨by omega, h.symm⟩
  · obtain ⟨j, hj⟩ : ∃ j, k - xs.length = j + 1 := ⟨k - xs.length - 1, by omega⟩
    rw [hj] at h
    simp at h

theorem getElem?_lift {α : Type} {xs new : List α} {g : α} {p : Nat}
    (h : xs[p]? = some g) : (xs ++ new)[p]? = some g := by
  have hp : p < xs.length := by
    rcases Nat.lt_or_ge p xs.length with h1 | h1
    · exact h1
    · rw [List.getElem?_eq_none h1] at h
      cases h
  rw [List.getElem?_append_left hp]
  exact h

theorem getElem?_lower {α : Type} {xs new : List α} {f : α} {k : Nat}
    (h : (xs ++ new)[k]? = some f) (hk : k < xs.length) : xs[k]? = some f := by
  rw [List.getElem?_append_left hk] at h
  exact h

theorem isub_eq {x y w : Int} (h : isub x y = some w) : w = x - y := by
  unfold isub at h
  split at h
  · exact (Option.some.inj h).symm
  · cases h

theorem iadd_eq {x y w : Int} (h : iadd x y = some w) : w = x + y := by
  unfold iadd at h
  split at h
  · exact (Option.some.inj h).symm
  · cases h

theorem memcpy_null_ok {n : Nat} {str : Option (List (Option Char))}
    (h : memcpy none n = Except.ok str) : str = none := by
  unfold memcpy at h
  split at h
  · cases h
    rfl
  · cases h

/-- A record pushed by a call that then stops at once is a call tree of its own. -/
theorem callTree_single (fs : List Frame) (f0 : Frame) (par : Option Nat) (l r : Int)
    (hok : FrameOK f0) (hpar : f0.par = par) (hl : f0.l = l) (hr : f0.r = r) :
    CallTree fs.length par l r (fs ++ [f0]) := by
  intro k f hf hk
  obtain ⟨hk1, hf1⟩ := getElem?_snoc_ge hf hk
  subst hf1
  exact ⟨hok, Or.inl ⟨hk1, hpar, hl, hr⟩⟩

theorem forest_of_callTree {base p : Nat} {l m : Int} {fs : List Frame}
    (h : CallTree base (some p) l m fs) : Forest base p l m fs := by
  intro k f hf hk
  obtain ⟨hok, hc⟩ := h k f hf hk
  refine ⟨hok, ?_⟩
  rcases hc with ⟨_, h1, h2, h3⟩ | hc
  · exact Or.inl ⟨h1, h2, h3⟩
  · exact Or.inr hc

theorem forest_append {base p : Nat} {l m : Int} {fs new : List Frame}
    (hb : base ≤ fs.length) (h1 : Forest base p l m fs)
    (h2 : CallTree fs.length (some p) l m (fs ++ new)) : Forest base p l m (fs ++ new) := by
  intro k f hf hk
  rcases Nat.lt_or_ge k fs.length with hlt | hge
  · obtain ⟨hok, hc⟩ := h1 k f (getElem?_lower hf hlt) hk
    refine ⟨hok, ?_⟩
    rcases hc with hc | ⟨q, g, hq1, hq2, hg, hc⟩
    · exact Or.inl hc
    · exact Or.inr ⟨q, g, hq1, hq2, getElem?_lift hg, hc⟩
  · obtain ⟨hok, hc⟩ := forest_of_callTree h2 k f hf hge
    refine ⟨hok, ?_⟩
    rcases hc with hc | ⟨q, g, hq1, hq2, hg, hc⟩
    · exact Or.inl hc
    · exact Or.inr ⟨q, g, by omega, hq2, hg, hc⟩

/-- The call tree of a caller is its own record followed by the records of its calls. -/
theorem callTree_node (fs new : List Frame) (f0 : Frame) (par : Option Nat) (l r : Int)
    (hok : FrameOK f0) (hpar : f0.par = par) (hl : f0.l = l) (hr : f0.r = r)
    (hsub : isub r l = some (r - l)) (hbig : LEAF_LEN < r - l)
    (hadd : iadd l r = some (l + r))
    (hnew : Forest (fs.length + 1) fs.length l (idiv2 (l + r)) ((fs ++ [f0]) ++ new)) :
    CallTree fs.length par l r ((fs ++ [f0]) ++ new) := by
  have h0 : ((fs ++ [f0]) ++ new)[fs.length]? = some f0 := by
    apply getElem?_lift
    simp
  intro k f hf hk
  rcases Nat.eq_or_lt_of_le hk with hk0 | hk0
  · subst hk0
    rw [h0] at hf
    cases hf
    exact ⟨hok, Or.inl ⟨rfl, hpar, hl, hr⟩⟩
  · obtain ⟨hfok, hcase⟩ := hnew k f hf hk0
    refine ⟨hfok, Or.inr ?_⟩
    rcases hcase with ⟨h1, h2, h3⟩ | ⟨p, g, hp1, hp2, hg, hc⟩
    · refine ⟨fs.length, f0, Nat.le_refl _, hk0, h0, h1, ?_, ?_, ?_, ?_, ?_⟩
      · rw [hl, hr]; exact hsub
      · rw [hl, hr]; exact hbig
      · rw [hl, hr]; exact hadd
      · rw [hl]; exact h2
      · rw [hl, hr]; exact h3
    · exact ⟨p, g, by omega, hp2, hg, hc⟩

/-- Every run of the body only appends records, and the records it appends form the call
tree of the call. -/
theorem createRopeAux_callTree (a : List Char) :
    ∀ (fuel : Nat) (ro par : Option Nat) (l r : Int) (s : Machine),
      (∃ new, (createRopeAux fuel ro par a l r s).frames = s.frames ++ new) ∧
        CallTree s.frames.length par l r (createRopeAux fuel ro par a l r s).frames := by
  intro fuel
  induction fuel with
  | zero =>
    intro ro par l r s
    refine ⟨⟨[], by simp [createRopeAux]⟩, ?_⟩
    intro k f hf hk
    simp only [createRopeAux] at hf
    rw [List.getElem?_eq_none hk] at hf
    cases hf
  | succ fuel ih =>
    intro ro par l r s
    rw [createRopeAux]
    cases hsub : isub r l with
    | none =>
      refine ⟨⟨_, rfl⟩, ?_⟩
      apply callTree_single _ _ _ _ _ ?_ rfl rfl rfl
      simp [FrameOK, hsub]
    | some w =>
      have hw := isub_eq hsub
      subst hw
      by_cases hbig : LEAF_LEN < r - l
      · simp only [hbig, if_true]
        cases hadd : iadd l r with
        | none =>
          refine ⟨⟨_, rfl⟩, ?_⟩
          apply callTree_single _ _ _ _ _ ?_ rfl rfl rfl
          simp [FrameOK, hsub]
        | some sum =>
          have hs := iadd_eq hadd
          subst hs
          have hok : FrameOK ⟨some s.frames.length, par, l, r, ⟨none, none, par, none, idiv2 (r - l)⟩⟩ := by
            simp [FrameOK, hsub]
          simp only []
          obtain ⟨⟨new1, h1⟩, t1⟩ := ih none (some s.frames.length) l (idiv2 (l + r))
            ⟨s.frames ++ [⟨some s.frames.length, par, l, r, ⟨none, none, par, none, idiv2 (r - l)⟩⟩], s.fault⟩
          generalize createRopeAux fuel none (some s.frames.length) a l (idiv2 (l + r))
            ⟨s.frames ++ [⟨some s.frames.length, par, l, r, ⟨none, none, par, none, idiv2 (r - l)⟩⟩], s.fault⟩ = s1 at h1 t1 ⊢
          simp only [List.length_append, List.length_singleton] at t1
          dsimp only at h1
          have f1 := forest_of_callTree t1
          cases hfault : s1.fault with
          | some e =>
            simp only []
            rw [h1]
            rw [h1] at f1
            exact ⟨⟨[⟨some s.frames.length, par, l, r, ⟨none, none, par, none, idiv2 (r - l)⟩⟩] ++ new1,
              by simp⟩, callTree_node _ _ _ _ _ _ hok rfl rfl rfl hsub hbig hadd f1⟩
          | none =>
            simp only []
            obtain ⟨⟨new2, h2⟩, t2⟩ := ih none (some s.frames.length) l (idiv2 (l + r)) s1
            rw [h2] at t2 ⊢
            have f2 := forest_append (by rw [h1]; simp) f1 t2
            rw [h1] at f2 ⊢
            rw [List.append_assoc (s.frames ++ _) new1 new2] at f2 ⊢
            exact ⟨⟨[⟨some s.frames.length, par, l, r, ⟨none, none, par, none, idiv2 (r - l)⟩⟩] ++
                (new1 ++ new2), by simp⟩,
              callTree_node _ _ _ _ _ _ hok rfl rfl rfl hsub hbig hadd f2⟩
      · simp only [hbig, if_false]
        cases hm : memcpy none a.length with
        | error e =>
          refine ⟨⟨_, rfl⟩, ?_⟩
          apply callTree_single _ _ _ _ _ ?_ rfl rfl rfl
          simp [FrameOK, hsub]
        | ok str =>
          have hstr := memcpy_null_ok hm
          subst hstr
          refine ⟨⟨_, rfl⟩, ?_⟩
          apply callTree_single _ _ _ _ _ ?_ rfl rfl rfl
          simp [FrameOK, hsub]

theorem idiv2_nonneg {x : Int} (h : 0 ≤ x) : idiv2 x = x / 2 :=
  Int.tdiv_eq_ediv h (by decide)

theorem idiv2_neg {x : Int} (h : x ≤ 0) : idiv2 x = -((-x) / 2) := by
  have h1 : idiv2 (-(-x)) = -idiv2 (-x) := Int.neg_tdiv (-x) 2
  rw [Int.neg_neg] at h1
  rw [h1, idiv2_nonneg (by omega)]

/-- Truncating division by two stays within one of the exact half. -/
theorem idiv2_bounds (x : Int) : 2 * idiv2 x ≤ x + 1 ∧ x - 1 ≤ 2 * idiv2 x := by
  rcases Int.le_total 0 x with h | h
  · rw [idiv2_nonneg h]
    omega
  · rw [idiv2_neg h]
    omega

theorem memcpy_null_error {n : Nat} {e : Fault}
    (h : memcpy none n = Except.error e) : e = Fault.nullWrite n ∧ 0 < n := by
  unfold memcpy at h
  split at h
  · cases h
  · cases h
    exact ⟨rfl, by omega⟩

/-- The budget of `createRope` is never used up: a run whose budget exceeds the width
`r - l` does not stop for lack of it. -/
theorem createRopeAux_fuel (a : List Char) :
    ∀ (fuel : Nat) (ro par : Option Nat) (l r : Int) (s : Machine),
      s.fault ≠ some Fault.fuel → (r - l).toNat < fuel →
        (createRopeAux fuel ro par a l r s).fault ≠ some Fault.fuel := by
  intro fuel
  induction fuel with
  | zero =>
    intro ro par l r s _ h
    omega
  | succ fuel ih =>
    intro ro par l r s hs hfuel
    rw [createRopeAux]
    cases hsub : isub r l with
    | none => simp
    | some w =>
      have hw := isub_eq hsub
      subst hw
      by_cases hbig : LEAF_LEN < r - l
      · simp only [hbig, if_true]
        cases hadd : iadd l r with
        | none => simp
        | some sum =>
          have hsum := iadd_eq hadd
          subst hsum
          have hlt : (idiv2 (l + r) - l).toNat < fuel := by
            have hb := idiv2_bounds (l + r)
            unfold LEAF_LEN at hbig
            omega
          dsimp only
          have h1 := ih none (some s.frames.length) l (idiv2 (l + r))
            ⟨s.frames ++ [⟨some s.frames.length, par, l, r, ⟨none, none, par, none, idiv2 (r - l)⟩⟩], s.fault⟩
            hs hlt
          generalize createRopeAux fuel none (some s.frames.length) a l (idiv2 (l + r))
            ⟨s.frames ++ [⟨some s.frames.length, par, l, r, ⟨none, none, par, none, idiv2 (r - l)⟩⟩], s.fault⟩ = s1 at h1 ⊢
          cases hfault : s1.fault with
          | some e =>
            dsimp only
            rw [hfault]
            rw [hfault] at h1
            exact h1
          | none =>
            dsimp only
            exact ih none (some s.frames.length) l (idiv2 (l + r)) s1 h1 hlt
      · simp only [hbig, if_false]
        cases hm : memcpy none a.length with
        | error e =>
          obtain ⟨he, _⟩ := memcpy_null_error hm
          subst he
          simp
        | ok str => exact hs

/-- In the call tree of `createRope(_, _, a, 0, n)` with `1 ≤ n`, every call has lower bound
`0` and an upper bound between `1` and `n`. -/
theorem callTree_zero_bounds {par : Option Nat} {n : Int} {fs : List Frame} (hn : 1 ≤ n)
    (h : CallTree 0 par 0 n fs) :
    ∀ (k : Nat) (f : Frame), fs[k]? = some f → f.l = 0 ∧ 1 ≤ f.r ∧ f.r ≤ n := by
  intro k
  induction k using Nat.strong_induction_on with
  | _ k ih =>
    intro f hf
    obtain ⟨_, hc⟩ := h k f hf (Nat.zero_le _)
    rcases hc with ⟨_, _, hl, hr⟩ | ⟨p, g, _, hp, hg, _, _, hbig, _, hl, hr⟩
    · exact ⟨hl, by omega, by omega⟩
    · obtain ⟨gl, g1, g2⟩ := ih p hp g hg
      rw [gl] at hl hr hbig
      unfold LEAF_LEN at hbig
      rw [idiv2_nonneg (by omega)] at hr
      exact ⟨hl, by omega, by omega⟩

/-- In that call tree a record at depth `d` has a range `2 ^ d` times narrower than the
root's. -/
theorem callTree_depth_width {n : Int} {fs : List Frame} (hn : 1 ≤ n)
    (h : CallTree 0 none 0 n fs) :
    ∀ (fuel k : Nat) (f : Frame), fs[k]? = some f → (2 : Int) ^ depth fs fuel k * f.r ≤ n := by
  intro fuel
  induction fuel with
  | zero =>
    intro k f hf
    have hb := callTree_zero_bounds hn h k f hf
    simp only [depth, pow_zero, one_mul]
    exact hb.2.2
  | succ fuel ih =>
    intro k f hf
    have hb := callTree_zero_bounds hn h k f hf
    obtain ⟨_, hc⟩ := h k f hf (Nat.zero_le _)
    rw [depth, hf]
    rcases hc with ⟨_, hpar, _, _⟩ | ⟨p, g, _, _, hg, hpar, _, hbig, _, _, hr⟩
    · simp only [hpar, pow_zero, one_mul]
      exact hb.2.2
    · simp only [hpar]
      have hgb := callTree_zero_bounds hn h p g hg
      have hrec := ih p g hg
      rw [hgb.1, idiv2_nonneg (by omega)] at hr
      have hpos : (0 : Int) ≤ 2 ^ depth fs fuel p := by positivity
      have h2 : 2 * f.r ≤ g.r := by omega
      calc (2 : Int) ^ (depth fs fuel p + 1) * f.r
          = 2 ^ depth fs fuel p * (2 * f.r) := by ring
        _ ≤ 2 ^ depth fs fuel p * g.r := mul_le_mul_of_nonneg_left h2 hpos
        _ ≤ n := hrec

theorem pow_foldr_max_le {n : Int} (hn : 1 ≤ n) :
    ∀ xs : List Nat, (∀ x ∈ xs, (2 : Int) ^ x ≤ n) → (2 : Int) ^ xs.foldr max 0 ≤ n := by
  intro xs
  induction xs with
  | nil =>
    intro _
    simpa using hn
  | cons x xs ih =>
    intro hx
    have h1 := hx x (List.mem_cons_self x xs)
    have h2 := ih (fun y hy => hx y (List.mem_cons_of_mem x hy))
    simp only [List.foldr_cons]
    rcases Nat.le_total x (xs.foldr max 0) with hle | hle
    · rw [Nat.max_eq_right hle]
      exact h2
    · rw [Nat.max_eq_left hle]
      exact h1

/-- Claim C9 (logarithmic height): for every `n ≥ 1` and every text, the run of
`createRope(ro, NULL, a, 0, n)` does not use up its recursion budget, and the tree of
calls it makes has a height `h` with `2 ^ h ≤ n`; for the call of `main`, `n = 26`, the
height is `4`. -/
theorem createRope_height_log (ro : Option Nat) (a : List Char) (n : Int) (hn : 1 ≤ n) :
    (createRope ro none a 0 n init).fault ≠ some Fault.fuel ∧
      (2 : Int) ^ height (createRope ro none a 0 n init).frames ≤ n ∧
      height main.machine.frames = 4 := by
  refine ⟨?_, ?_, by decide⟩
  · apply createRopeAux_fuel
    · simp [init]
    · omega
  · obtain ⟨_, ht⟩ := createRopeAux_callTree a ((n - 0).toNat + 1) ro none 0 n init
    have ht0 : CallTree 0 none 0 n (createRope ro none a 0 n init).frames := ht
    apply pow_foldr_max_le hn
    intro x hx
    obtain ⟨k, hk, rfl⟩ := List.mem_map.mp hx
    have hklt : k < (createRope ro none a 0 n init).frames.length := List.mem_range.mp hk
    obtain ⟨f, hf⟩ : ∃ f, (createRope ro none a 0 n init).frames[k]? = some f :=
      ⟨_, List.getElem?_eq_getElem hklt⟩
    have hb := callTree_zero_bounds hn ht0 k f hf
    have hd := callTree_depth_width hn ht0 (createRope ro none a 0 n init).frames.length k f hf
    have hpos : (0 : Int) ≤ 2 ^ depth (createRope ro none a 0 n init).frames
        (createRope ro none a 0 n init).frames.length k := by positivity
    calc (2 : Int) ^ depth (createRope ro none a 0 n init).frames
          (createRope ro none a 0 n init).frames.length k
        = 2 ^ depth (createRope ro none a 0 n init).frames
          (createRope ro none a 0 n init).frames.length k * 1 := by ring
      _ ≤ 2 ^ depth (createRope ro none a 0 n init).frames
          (createRope ro none a 0 n init).frames.length k * f.r :=
          mul_le_mul_of_nonneg_left hb.2.1 hpos
      _ ≤ n := hd

/-- Witness of `createRope_height_log` at the call of `main`: the text of `main`, `n = 26`. -/
theorem createRope_height_log_witness :
    (1 : Int) ≤ 26 ∧ (2 : Int) ^ height (createRope none none mainText 0 26 init).frames ≤ 26 ∧
      height (createRope none none mainText 0 26 init).frames = 4 :=
  ⟨by decide, (createRope_height_log none mainText 26 (by decide)).2.1, by decide⟩

/-- The recursion budget of `createRope` is enough: no run stops for lack of it. -/
theorem createRope_fuel (ro par : Option Nat) (a : List Char) (l r : Int) (s : Machine)
    (hs : s.fault ≠ some Fault.fuel) : (createRope ro par a l r s).fault ≠ some Fault.fuel :=
  createRopeAux_fuel a _ ro par l r s hs (by omega)

/-- The budget of `depth` does not matter once it exceeds the address: in a call tree the
`par` of a record is an earlier record, so `height` measures complete chains of links. -/
theorem callTree_depth_stable {l r : Int} {fs : List Frame} (h : CallTree 0 none l r fs) :
    ∀ (k fuel1 fuel2 : Nat), k < fuel1 → k < fuel2 → depth fs fuel1 k = depth fs fuel2 k := by
  intro k
  induction k using Nat.strong_induction_on with
  | _ k ih =>
    intro fuel1 fuel2 h1 h2
    obtain ⟨e1, rfl⟩ : ∃ e, fuel1 = e + 1 := ⟨fuel1 - 1, by omega⟩
    obtain ⟨e2, rfl⟩ : ∃ e, fuel2 = e + 1 := ⟨fuel2 - 1, by omega⟩
    rw [depth, depth]
    cases hf : fs[k]? with
    | none => rfl
    | some f =>
      obtain ⟨_, hc⟩ := h k f hf (Nat.zero_le _)
      rcases hc with ⟨_, hpar, _, _⟩ | ⟨p, g, _, hp, _, hpar, _⟩
      · simp only [hpar]
      · simp only [hpar]
        rw [ih p hp e1 e2 (by omega) (by omega)]

/-! The claims -/

/-- Claim C1 (round trip), evaluated at the call of `main`: the run stops at its first leaf
with a write of 26 bytes through the null `tmp.str`; `root1` is still `NULL`; and
flattening yields the empty text, from `root1` as from the first record made, not the 26
characters of the text. -/
theorem main_collect_empty :
    main.machine.fault = some (Fault.nullWrite 26) ∧ main.root1 = none ∧
      collect main.machine.frames main.machine.frames.length main.root1 = [] ∧
      collect main.machine.frames main.machine.frames.length (some 0) = [] ∧
      mainText.length = 26 := by
  decide

/-- Claim C2 (midpoint partition), evaluated at the range of `main`: with the text of
`main` the run makes the calls `(0,26), (0,13), (0,6), (0,3), (0,1)` and stops; with an
empty text, where no leaf faults, both calls made by the root are for `(0, 13)`, none for
`(13, 26)`. -/
theorem main_right_child_range :
    main.machine.frames.map (fun f => (f.l, f.r)) = [(0, 26), (0, 13), (0, 6), (0, 3), (0, 1)] ∧
      (createRope none none [] 0 26 init).fault = none ∧
      rangesCalledBy (createRope none none [] 0 26 init).frames 0 = [(0, 13), (0, 13)] := by
  decide

/-- Claim C3 (weight invariant), evaluated at the call of `main`: the record at address 3
is the internal node for `(0, 3)` with `lCount = 1`; its `left` is null, so there is no
`totalLength` of a left subtree; and the node of the one call it made, the leaf for
`(0, 1)` at address 4, has `totalLength` `0`, not `1`. -/
theorem main_weight_mismatch :
    main.machine.frames[3]?.map (fun f => (f.l, f.r, isInternal f, f.tmp.lCount, f.tmp.left)) =
        some (0, 3, true, 1, none) ∧
      totalLength main.machine.frames main.machine.frames.length none = none ∧
      main.machine.frames[4]?.map (fun f => (f.par, f.l, f.r, isInternal f)) =
        some (some 3, 0, 1, false) ∧
      totalLength main.machine.frames main.machine.frames.length (some 4) = some 0 := by
  decide

/-- Claim C4 (valid root), evaluated at the call of `main`: `root1` is `NULL` after the
call, only the callee's copies `ro` were set, and every record's `left` and `right` are
null. -/
theorem main_root_null :
    main.root1 = none ∧
      main.machine.frames.map (fun f => f.ro) = [some 0, some 1, some 2, some 3, some 4] ∧
      main.machine.frames.map (fun f => (f.tmp.left, f.tmp.right)) =
        [(none, none), (none, none), (none, none), (none, none), (none, none)] := by
  decide

/-- Claim C5 (no runtime failure), evaluated at the call of `main`: the run does not
complete, it stops with a write through the null text buffer. -/
theorem main_faults : main.machine.fault = some (Fault.nullWrite mainText.length) := by
  decide

/-- Claim C6 (leaf size bound), evaluated at the call of `main`: the leaf for the range
`(0, 1)` asks `memcpy` for `strlen(a) = 26` characters, more than `LEAF_LEN`, and stores
none. -/
theorem main_leaf_copy_count :
    main.machine.frames.getLast?.map (fun f => (f.l, f.r, isInternal f, f.tmp.str.isNone)) =
        some (0, 1, false, true) ∧
      (∃ n : Nat, main.machine.fault = some (Fault.nullWrite n) ∧ LEAF_LEN < (n : Int)) :=
  ⟨by decide, 26, by decide, by decide⟩

/-- Claim C7 (leaf length memo), evaluated at the call of `main` and at a leaf of width 2:
the leaf for `(0, 1)` has `lCount = 0` and the leaf for `(0, 2)` has `lCount = 1`, not the
widths `1` and `2`, and neither holds a text. -/
theorem main_leaf_lCount :
    main.machine.frames[4]?.map
          (fun f => (f.l, f.r, isInternal f, f.tmp.lCount, f.tmp.str.isNone)) =
        some (0, 1, false, 0, true) ∧
      (createRope none none [] 0 2 init).frames.map
          (fun f => (f.l, f.r, isInternal f, f.tmp.lCount, f.tmp.str.isNone)) =
        [(0, 2, false, 1, true)] := by
  decide

/-- Claim C8 (unambiguous node shape), evaluated at the call of `main`: five nodes are
created and each has neither a text nor a child. -/
theorem main_nodes_bare :
    main.machine.frames.length = 5 ∧
      ∀ f ∈ main.machine.frames, f.tmp.str = none ∧ f.tmp.left = none ∧ f.tmp.right = none := by
  decide

/-- Claim C10 as stated fails at the call of `main`: not every created node has a null
`parent`; the second record's `parent` is the address of the first. -/
theorem main_parent_stored :
    (¬ ∀ f ∈ main.machine.frames, f.tmp.parent = none) ∧
      main.machine.frames[1]?.map (fun f => f.tmp.parent) = some (some 0) := by
  decide

/-- Claim C10, amended (stored parent links): in every run of `createRope(ro, par, a, l, r)`
each created node stores its `par` argument in its `parent` field; the first node's is the
`par` of the call, and every later node's is the address of the earlier node whose call
made it. -/
theorem createRope_parent_links (ro par : Option Nat) (a : List Char) (l r : Int) :
    ∀ (k : Nat) (f : Frame), (createRope ro par a l r init).frames[k]? = some f →
      f.tmp.parent = f.par ∧ (k = 0 → f.tmp.parent = par) ∧
        (0 < k → ∃ p g, p < k ∧ (createRope ro par a l r init).frames[p]? = some g ∧
          f.tmp.parent = some p ∧ CalledBy g p f) := by
  intro k f hf
  obtain ⟨_, ht⟩ := createRopeAux_callTree a ((r - l).toNat + 1) ro par l r init
  obtain ⟨⟨_, _, _, hpar, _⟩, hc⟩ := ht k f hf (Nat.zero_le _)
  refine ⟨hpar, ?_, ?_⟩
  · intro hk
    rcases hc with ⟨_, h1, _, _⟩ | ⟨p, g, _, hp, _, _⟩
    · rw [hpar, h1]
    · omega
  · intro hk
    rcases hc with ⟨h0, _, _, _⟩ | ⟨p, g, _, hp, hg, hcb⟩
    · have h0' : k = 0 := h0
      omega
    · exact ⟨p, g, hp, hg, by rw [hpar]; exact hcb.1, hcb⟩

/-- Witness of `createRope_parent_links` at the call of `main`: the second node made, for
the range `(0, 13)`, stores the address of the first. -/
theorem createRope_parent_links_witness :
    (createRope none none mainText 0 26 init).frames[1]? =
        some ⟨some 1, some 0, 0, 13, ⟨none, none, some 0, none, 6⟩⟩ ∧
      ∃ p g, p < 1 ∧ (createRope none none mainText 0 26 init).frames[p]? = some g ∧
        (⟨none, none, some 0, none, 6⟩ : Rope).parent = some p ∧
        CalledBy g p ⟨some 1, some 0, 0, 13, ⟨none, none, some 0, none, 6⟩⟩ :=
  ⟨by decide,
    (createRope_parent_links none none mainText 0 26 1
      ⟨some 1, some 0, 0, 13, ⟨none, none, some 0, none, 6⟩⟩ (by decide)).2.2 (by decide)⟩

/-- The midpoint of a range wider than `LEAF_LEN` lies strictly inside it, whatever the
signs of `l` and `r`. -/
theorem idiv2_mid {l r : Int} (hbig : LEAF_LEN < r - l) :
    l < idiv2 (l + r) ∧ idiv2 (l + r) < r := by
  have hb := idiv2_bounds (l + r)
  unfold LEAF_LEN at hbig
  omega

/-- A run of the body with budget left records the call itself, at the next free address. -/
theorem createRopeAux_root (a : List Char) (fuel : Nat) (ro par : Option Nat) (l r : Int)
    (s : Machine) :
    ∃ f, (createRopeAux (fuel + 1) ro par a l r s).frames[s.frames.length]? = some f := by
  have hsnoc : ∀ (f0 : Frame), (s.frames ++ [f0])[s.frames.length]? = some f0 := by
    intro f0
    simp
  rw [createRopeAux]
  cases hsub : isub r l with
  | none => exact ⟨_, hsnoc _⟩
  | some w =>
    by_cases hbig : LEAF_LEN < w
    · simp only [hbig, if_true]
      cases hadd : iadd l r with
      | none => exact ⟨_, hsnoc _⟩
      | some sum =>
        dsimp only
        obtain ⟨⟨new1, h1⟩, _⟩ := createRopeAux_callTree a fuel none (some s.frames.length) l
          (idiv2 sum)
          ⟨s.frames ++ [⟨some s.frames.length, par, l, r, ⟨none, none, par, none, idiv2 w⟩⟩], s.fault⟩
        generalize createRopeAux fuel none (some s.frames.length) a l (idiv2 sum)
          ⟨s.frames ++ [⟨some s.frames.length, par, l, r, ⟨none, none, par, none, idiv2 w⟩⟩], s.fault⟩
          = s1 at h1 ⊢
        dsimp only at h1
        have hs1 : s1.frames[s.frames.length]? = some
            ⟨some s.frames.length, par, l, r, ⟨none, none, par, none, idiv2 w⟩⟩ := by
          rw [h1]
          exact getElem?_lift (hsnoc _)
        cases hfault : s1.fault with
        | some e => exact ⟨_, hs1⟩
        | none =>
          dsimp only
          obtain ⟨⟨new2, h2⟩, _⟩ := createRopeAux_callTree a fuel none (some s.frames.length) l
            (idiv2 sum) s1
          rw [h2]
          exact ⟨_, getElem?_lift hs1⟩
    · simp only [hbig, if_false]
      cases hm : memcpy none a.length with
      | error e => exact ⟨_, hsnoc _⟩
      | ok str => exact ⟨_, hsnoc _⟩

/-- A run of the body that takes the branch `(r - l) > LEAF_LEN` with budget left for a
call records its first recursive call right after its own record. -/
theorem createRopeAux_first_call (a : List Char) (fuel : Nat) (ro par : Option Nat) (l r : Int)
    (s : Machine) (hsub : isub r l = some (r - l)) (hbig : LEAF_LEN < r - l)
    (hadd : iadd l r = some (l + r)) :
    ∃ f, (createRopeAux (fuel + 2) ro par a l r s).frames[s.frames.length + 1]? = some f := by
  rw [createRopeAux]
  simp only [hsub, hbig, if_true, hadd]
  obtain ⟨f, hf⟩ := createRopeAux_root a fuel none (some s.frames.length) l (idiv2 (l + r))
    ⟨s.frames ++ [⟨some s.frames.length, par, l, r, ⟨none, none, par, none, idiv2 (r - l)⟩⟩], s.fault⟩
  simp only [List.length_append, List.length_singleton] at hf
  generalize createRopeAux (fuel + 1) none (some s.frames.length) a l (idiv2 (l + r))
    ⟨s.frames ++ [⟨some s.frames.length, par, l, r, ⟨none, none, par, none, idiv2 (r - l)⟩⟩], s.fault⟩
    = s1 at hf ⊢
  cases hfault : s1.fault with
  | some e => exact ⟨f, hf⟩
  | none =>
    dsimp only
    obtain ⟨⟨new2, h2⟩, _⟩ := createRopeAux_callTree a (fuel + 1) none (some s.frames.length) l
      (idiv2 (l + r)) s1
    rw [h2]
    exact ⟨f, getElem?_lift hf⟩

/-- In the call tree of `createRope(_, par, a, l, r)` every call has the lower bound `l`, and
every call but the first has an upper bound of at most `(l + r) / 2`. -/
theorem callTree_fixed_lower {par : Option Nat} {l r : Int} {fs : List Frame}
    (h : CallTree 0 par l r fs) :
    ∀ (k : Nat) (f : Frame), fs[k]? = some f →
      f.l = l ∧ (k = 0 → f.r = r) ∧ (0 < k → f.r ≤ idiv2 (l + r)) := by
  intro k
  induction k using Nat.strong_induction_on with
  | _ k ih =>
    intro f hf
    obtain ⟨_, hc⟩ := h k f hf (Nat.zero_le _)
    rcases hc with ⟨hk, _, hl, hr⟩ | ⟨p, g, _, hp, hg, _, _, hbig, _, hl, hr⟩
    · exact ⟨hl, fun _ => hr, fun hk0 => by omega⟩
    · obtain ⟨gl, g0, g1⟩ := ih p hp g hg
      refine ⟨by rw [hl, gl], fun hk0 => by omega, fun _ => ?_⟩
      rw [gl] at hr hbig
      rcases Nat.eq_zero_or_pos p with hp0 | hp0
      · rw [g0 hp0] at hr
        omega
      · have hm := idiv2_mid hbig
        have := g1 hp0
        omega

/-- Claim C12 (termination): for all integers `l` and `r` the run of
`createRope(ro, par, a, l, r)` never uses up its recursion budget; when `r - l` and `l + r`
do not overflow and `r - l > LEAF_LEN`, the width `m - l` with `m = (l + r) / 2` (truncating)
is strictly smaller than `r - l`; and every recursive call of the run, first or second, is
passed its caller's `l` and `m` and so a strictly narrower range than its caller's. -/
theorem createRope_terminates (ro par : Option Nat) (a : List Char) (l r : Int) :
    (createRope ro par a l r init).fault ≠ some Fault.fuel ∧
      (isub r l = some (r - l) → iadd l r = some (l + r) → LEAF_LEN < r - l →
        idiv2 (l + r) - l < r - l) ∧
      ∀ (k : Nat) (f : Frame), (createRope ro par a l r init).frames[k]? = some f → 0 < k →
        ∃ p g, p < k ∧ (createRope ro par a l r init).frames[p]? = some g ∧ CalledBy g p f ∧
          f.r - f.l < g.r - g.l := by
  refine ⟨?_, ?_, ?_⟩
  · apply createRopeAux_fuel
    · simp [init]
    · omega
  · intro _ _ hbig
    have := idiv2_mid hbig
    omega
  · intro k f hf hk
    obtain ⟨_, ht⟩ := createRopeAux_callTree a ((r - l).toNat + 1) ro par l r init
    obtain ⟨_, hc⟩ := ht k f hf (Nat.zero_le _)
    rcases hc with ⟨h0, _, _, _⟩ | ⟨p, g, _, hp, hg, hcb⟩
    · have h0' : k = 0 := h0
      omega
    · refine ⟨p, g, hp, hg, hcb, ?_⟩
      obtain ⟨_, _, hbig, _, hl, hr⟩ := hcb
      have := idiv2_mid hbig
      rw [hl, hr]
      omega

/-- Witness of `createRope_terminates` at a range with a negative sum, `l = -7`, `r = -2`,
on the empty text: `m = -4`, the width drops from `5` to `3`, and the first recursive call
is for `(-7, -4)`. -/
theorem createRope_terminates_witness :
    (createRope none none [] (-7) (-2) init).fault ≠ some Fault.fuel ∧
      idiv2 (-7 + -2) - -7 < -2 - -7 ∧
      ∃ p g, p < 1 ∧ (createRope none none [] (-7) (-2) init).frames[p]? = some g ∧
        CalledBy g p ⟨some 1, some 0, -7, -4, ⟨none, none, some 0, none, 1⟩⟩ ∧
        (-4 : Int) - -7 < g.r - g.l :=
  ⟨(createRope_terminates none none [] (-7) (-2)).1,
    (createRope_terminates none none [] (-7) (-2)).2.1 (by decide) (by decide) (by decide),
    (createRope_terminates none none [] (-7) (-2)).2.2 1
      ⟨some 1, some 0, -7, -4, ⟨none, none, some 0, none, 1⟩⟩ (by decide) (by decide)⟩

/-- Claim C13 (left weight equals left range width): for `0 ≤ l`, `r - l > LEAF_LEN` and
`l + r` within `int`, the run of `createRope(ro, par, a, l, r)` records the call with
`lCount = (r - l) / 2` and then its first recursive call, the one for the left child, with
the range `(l, m)`, `m = (l + r) / 2`; and `lCount = m - l`, the width of that range. -/
theorem createRope_lCount_left_width (ro par : Option Nat) (a : List Char) (l r : Int)
    (hl : 0 ≤ l) (hbig : LEAF_LEN < r - l) (hov : l + r ≤ INT_MAX) :
    ∃ g f, (createRope ro par a l r init).frames[0]? = some g ∧
      (createRope ro par a l r init).frames[1]? = some f ∧
      g.l = l ∧ g.r = r ∧ g.tmp.lCount = idiv2 (r - l) ∧
      f.par = some 0 ∧ f.l = l ∧ f.r = idiv2 (l + r) ∧
      g.tmp.lCount = idiv2 (l + r) - l ∧ g.tmp.lCount = f.r - f.l := by
  have hbig' : 2 < r - l := hbig
  have hmax : INT_MAX = 2147483647 := rfl
  have hmin : INT_MIN = -2147483648 := rfl
  have hsub : isub r l = some (r - l) := by
    unfold isub
    rw [if_pos ⟨by omega, by omega⟩]
  have hadd : iadd l r = some (l + r) := by
    unfold iadd
    rw [if_pos ⟨by omega, by omega⟩]
  obtain ⟨e, he⟩ : ∃ e, (r - l).toNat + 1 = e + 2 := ⟨(r - l).toNat - 1, by omega⟩
  obtain ⟨_, ht0⟩ := createRopeAux_callTree a ((r - l).toNat + 1) ro par l r init
  have ht : CallTree 0 par l r (createRope ro par a l r init).frames := ht0
  obtain ⟨g, hg⟩ : ∃ g, (createRope ro par a l r init).frames[0]? = some g := by
    unfold createRope
    rw [he]
    exact createRopeAux_root a (e + 1) ro par l r init
  obtain ⟨f, hf⟩ : ∃ f, (createRope ro par a l r init).frames[1]? = some f := by
    unfold createRope
    rw [he]
    exact createRopeAux_first_call a e ro par l r init hsub hbig hadd
  have hg' := ht 0 g hg (Nat.le_refl _)
  have hf' := ht 1 f hf (Nat.zero_le _)
  obtain ⟨⟨_, _, _, _, hcount⟩, hgc⟩ := hg'
  have hgl : g.l = l ∧ g.r = r := by
    rcases hgc with ⟨_, _, h1, h2⟩ | ⟨p, _, _, hp, _⟩
    · exact ⟨h1, h2⟩
    · omega
  rw [hgl.1, hgl.2, hsub] at hcount
  have hcount' : g.tmp.lCount = idiv2 (r - l) := hcount
  obtain ⟨_, hfc⟩ := hf'
  have hfl : f.par = some 0 ∧ f.l = l ∧ f.r = idiv2 (l + r) := by
    rcases hfc with ⟨h0, _⟩ | ⟨p, g2, _, hp, hg2, hpar, _, _, _, h1, h2⟩
    · have h0' : (1 : Nat) = 0 := h0
      omega
    · have hp0 : p = 0 := by omega
      subst hp0
      rw [hg] at hg2
      cases hg2
      rw [hgl.1] at h1
      rw [hgl.1, hgl.2] at h2
      exact ⟨hpar, h1, h2⟩
  have harith : idiv2 (r - l) = idiv2 (l + r) - l := by
    rw [idiv2_nonneg (by omega), idiv2_nonneg (by omega)]
    omega
  refine ⟨g, f, hg, hf, hgl.1, hgl.2, hcount', hfl.1, hfl.2.1, hfl.2.2, ?_, ?_⟩
  · rw [hcount', harith]
  · rw [hcount', harith, hfl.2.1, hfl.2.2]

/-- Witness of `createRope_lCount_left_width` at the call of `main`, `l = 0`, `r = 26`. -/
theorem createRope_lCount_left_width_witness :
    (0 : Int) ≤ 0 ∧ LEAF_LEN < 26 - 0 ∧ (0 : Int) + 26 ≤ INT_MAX ∧
      ∃ g f, (createRope none none mainText 0 26 init).frames[0]? = some g ∧
        (createRope none none mainText 0 26 init).frames[1]? = some f ∧
        g.l = 0 ∧ g.r = 26 ∧ g.tmp.lCount = idiv2 (26 - 0) ∧
        f.par = some 0 ∧ f.l = 0 ∧ f.r = idiv2 (0 + 26) ∧
        g.tmp.lCount = idiv2 (0 + 26) - 0 ∧ g.tmp.lCount = f.r - f.l :=
  ⟨by decide, by decide, by decide,
    createRope_lCount_left_width none none mainText 0 26 (by decide) (by decide) (by decide)⟩

/-- Claim C14 as stated fails at the call of `main`, `l = 0`, `r = 26`, where
`r - l > LEAF_LEN` and `0 ≤ l`: the node of the call itself has the range `(0, 26)`, which
contains `13 = (0 + 26) / 2`; so it is not true that no node's range contains an index
`i` with `(l + r) / 2 ≤ i < r`. -/
theorem main_root_range_upper_half :
    LEAF_LEN < 26 - 0 ∧
      ¬ ∀ f ∈ main.machine.frames, ∀ i : Int, idiv2 (0 + 26) ≤ i → i < 26 →
        ¬ (f.l ≤ i ∧ i < f.r) :=
  ⟨by decide, fun h =>
    h ⟨some 0, none, 0, 26, ⟨none, none, none, none, 13⟩⟩ (by decide) 13 (by decide) (by decide)
      ⟨by decide, by decide⟩⟩

/-- Claim C14, amended (fixed lower bound): in every run of `createRope(ro, par, a, l, r)`
every call recorded has the lower bound `l`, so every leaf range starts at `l`; and every
recursive call, at any depth, has an upper bound of at most `(l + r) / 2`, so the range of
a node made by a recursive call contains no index `i` with `(l + r) / 2 ≤ i < r`. -/
theorem createRope_fixed_lower_bound (ro par : Option Nat) (a : List Char) (l r : Int) :
    ∀ (k : Nat) (f : Frame), (createRope ro par a l r init).frames[k]? = some f →
      f.l = l ∧
        (0 < k → f.r ≤ idiv2 (l + r) ∧
          ∀ i : Int, idiv2 (l + r) ≤ i → i < r → ¬ (f.l ≤ i ∧ i < f.r)) := by
  intro k f hf
  obtain ⟨_, ht⟩ := createRopeAux_callTree a ((r - l).toNat + 1) ro par l r init
  obtain ⟨hl, _, hr⟩ := callTree_fixed_lower ht k f hf
  refine ⟨hl, fun hk => ⟨hr hk, ?_⟩⟩
  intro i hi _ hin
  have := hr hk
  omega

/-- Witness of `createRope_fixed_lower_bound` on the empty text, `l = 0`, `r = 26`, at the
second call made by the root, the one for the right child: its range is `(0, 13)`. -/
theorem createRope_fixed_lower_bound_witness :
    (createRope none none [] 0 26 init).frames[16]? =
        some ⟨some 16, some 0, 0, 13, ⟨none, none, some 0, none, 6⟩⟩ ∧
      (0 : Int) = 0 ∧ (13 : Int) ≤ idiv2 (0 + 26) ∧
      ∀ i : Int, idiv2 (0 + 26) ≤ i → i < 26 → ¬ ((0 : Int) ≤ i ∧ i < 13) :=
  ⟨by decide,
    (createRope_fixed_lower_bound none none [] 0 26 16
      ⟨some 16, some 0, 0, 13, ⟨none, none, some 0, none, 6⟩⟩ (by decide)).1,
    ((createRope_fixed_lower_bound none none [] 0 26 16
      ⟨some 16, some 0, 0, 13, ⟨none, none, some 0, none, 6⟩⟩ (by decide)).2 (by decide)).1,
    ((createRope_fixed_lower_bound none none [] 0 26 16
      ⟨some 16, some 0, 0, 13, ⟨none, none, some 0, none, 6⟩⟩ (by decide)).2 (by decide)).2⟩

/-- A well-formed node flattens to as many characters as its `totalLength`. -/
theorem specCollect_length : ∀ n : SpecNode, SpecWellFormed n →
    (specCollect n).length = specTotalLength n := by
  intro n
  induction n with
  | leaf t k =>
    intro h
    exact h.symm
  | internal lt rt w ht ihl ihr =>
    intro h
    obtain ⟨hw, hl, hr⟩ := h
    simp only [specCollect, specTotalLength, List.length_append]
    rw [ihl hl, ihr hr, hw]

theorem specValid_collect_length {r : SpecRope} (h : SpecValid r) :
    (specCollect r.root).length = r.length := by
  rw [specCollect_length r.root h.1, h.2]

theorem specValid_empty {r : SpecRope} (h : SpecValid r) (h0 : r.length = 0) :
    specCollect r.root = [] := by
  apply List.eq_nil_of_length_eq_zero
  rw [specValid_collect_length h, h0]

theorem specRopeOf_valid {n : SpecNode} (h : SpecWellFormed n) : SpecValid (specRopeOf n) :=
  ⟨h, rfl⟩

/-- The joiner keeps ropes valid, adds their lengths and appends their texts. -/
theorem specConcat_valid (leafMax : Nat) (fuse : Bool) (a b : SpecRope)
    (ha : SpecValid a) (hb : SpecValid b) :
    SpecValid (specConcat leafMax fuse a b) ∧
      (specConcat leafMax fuse a b).length = a.length + b.length ∧
      specCollect (specConcat leafMax fuse a b).root =
        specCollect a.root ++ specCollect b.root := by
  have hnode : SpecValid ⟨SpecNode.internal a.root b.root a.length
        (1 + max (specHeight a.root) (specHeight b.root)), a.length + b.length⟩ ∧
      (⟨SpecNode.internal a.root b.root a.length
        (1 + max (specHeight a.root) (specHeight b.root)), a.length + b.length⟩ : SpecRope).length
        = a.length + b.length ∧
      specCollect (⟨SpecNode.internal a.root b.root a.length
        (1 + max (specHeight a.root) (specHeight b.root)), a.length + b.length⟩ : SpecRope).root =
        specCollect a.root ++ specCollect b.root := by
    refine ⟨⟨⟨ha.2, ha.1, hb.1⟩, ?_⟩, rfl, rfl⟩
    show a.length + b.length = a.length + specTotalLength b.root
    rw [hb.2]
  unfold specConcat
  by_cases h1 : a.length = 0
  · rw [if_pos h1]
    refine ⟨hb, by omega, ?_⟩
    rw [specValid_empty ha h1, List.nil_append]
  · rw [if_neg h1]
    by_cases h2 : b.length = 0
    · rw [if_pos h2]
      refine ⟨ha, by omega, ?_⟩
      rw [specValid_empty hb h2, List.append_nil]
    · rw [if_neg h2]
      split
      · rename_i s n t m hs ht
        by_cases h3 : n + m ≤ leafMax
        · rw [if_pos h3]
          obtain ⟨hwa, hla⟩ := ha
          obtain ⟨hwb, hlb⟩ := hb
          rw [hs] at hwa hla
          rw [ht] at hwb hlb
          have hn : n = s.length := hwa
          have hm : m = t.length := hwb
          have hla' : a.length = n := hla
          have hlb' : b.length = m := hlb
          refine ⟨⟨?_, ?_⟩, rfl, ?_⟩
          · show n + m = (s ++ t).length
            rw [List.length_append, hn, hm]
          · show a.length + b.length = n + m
            rw [hla', hlb']
          · show s ++ t = specCollect a.root ++ specCollect b.root
            rw [hs, ht]
            rfl
        · rw [if_neg h3]
          exact hnode
      · exact hnode

/-- The I3 cleanup keeps a rope valid and changes neither its length nor its text. -/
theorem specCollapse_valid (r : SpecRope) (h : SpecValid r) :
    SpecValid (specCollapse r) ∧ (specCollapse r).length = r.length ∧
      specCollect (specCollapse r).root = specCollect r.root := by
  obtain ⟨root, len⟩ := r
  cases root with
  | leaf t k => exact ⟨h, rfl, rfl⟩
  | internal lt rt w ht =>
    obtain ⟨⟨hw, hl, hr⟩, hlen⟩ := h
    have hlen' : len = w + specTotalLength rt := hlen
    have hcl := specCollect_length lt hl
    have hcr := specCollect_length rt hr
    simp only [specCollapse]
    by_cases h1 : specTotalLength lt = 0 ∧ specTotalLength rt = 0
    · rw [if_pos h1]
      refine ⟨⟨rfl, rfl⟩, ?_, ?_⟩
      · show 0 = len
        omega
      · show ([] : List Char) = specCollect lt ++ specCollect rt
        rw [List.eq_nil_of_length_eq_zero (hcl.trans h1.1),
          List.eq_nil_of_length_eq_zero (hcr.trans h1.2)]
        rfl
    · rw [if_neg h1]
      by_cases h2 : specTotalLength lt = 0
      · rw [if_pos h2]
        refine ⟨specRopeOf_valid hr, ?_, ?_⟩
        · show specTotalLength rt = len
          omega
        · show specCollect rt = specCollect lt ++ specCollect rt
          rw [List.eq_nil_of_length_eq_zero (hcl.trans h2), List.nil_append]
      · rw [if_neg h2]
        by_cases h3 : specTotalLength rt = 0
        · rw [if_pos h3]
          refine ⟨specRopeOf_valid hl, ?_, ?_⟩
          · show specTotalLength lt = len
            omega
          · show specCollect lt = specCollect lt ++ specCollect rt
            rw [List.eq_nil_of_length_eq_zero (hcr.trans h3), List.append_nil]
        · rw [if_neg h3]
          exact ⟨⟨⟨hw, hl, hr⟩, hlen⟩, rfl, rfl⟩

/-- The recursion of `split` on a well-formed node, at an offset within its length: both
pieces are valid ropes, of lengths `i` and the rest, and their texts in order give the
node's text. -/
theorem specSplitNode_valid (leafMax : Nat) (fuse : Bool) :
    ∀ (n : SpecNode) (i : Nat), SpecWellFormed n → i ≤ specTotalLength n →
      SpecValid (specSplitNode leafMax fuse n i).1 ∧
        SpecValid (specSplitNode leafMax fuse n i).2 ∧
        (specSplitNode leafMax fuse n i).1.length = i ∧
        (specSplitNode leafMax fuse n i).2.length = specTotalLength n - i ∧
        specCollect (specSplitNode leafMax fuse n i).1.root ++
            specCollect (specSplitNode leafMax fuse n i).2.root = specCollect n := by
  intro n
  induction n with
  | leaf t k =>
    intro i hwf hi
    have hk : k = t.length := hwf
    have hi' : i ≤ k := hi
    simp only [specSplitNode]
    refine ⟨specRopeOf_valid rfl, specRopeOf_valid rfl, ?_, ?_, ?_⟩
    · show (t.take i).length = i
      rw [List.length_take]
      omega
    · show (t.drop i).length = k - i
      rw [List.length_drop, hk]
    · show t.take i ++ t.drop i = t
      exact List.take_append_drop i t
  | internal lt rt w ht ihl ihr =>
    intro i hwf hi
    obtain ⟨hw, hl, hr⟩ := hwf
    have hi' : i ≤ w + specTotalLength rt := hi
    simp only [specSplitNode]
    by_cases hiw : i ≤ w
    · rw [if_pos hiw]
      obtain ⟨v1, v2, l1, l2, hc⟩ := ihl i hl (by omega)
      obtain ⟨cv, cl, cc⟩ := specConcat_valid leafMax fuse (specSplitNode leafMax fuse lt i).2
        (specRopeOf rt) v2 (specRopeOf_valid hr)
      obtain ⟨a1, a2, a3⟩ := specCollapse_valid _ v1
      obtain ⟨b1, b2, b3⟩ := specCollapse_valid _ cv
      refine ⟨a1, b1, ?_, ?_, ?_⟩
      · show (specCollapse (specSplitNode leafMax fuse lt i).1).length = i
        rw [a2, l1]
      · show (specCollapse (specConcat leafMax fuse (specSplitNode leafMax fuse lt i).2
            (specRopeOf rt))).length = w + specTotalLength rt - i
        rw [b2, cl, l2]
        show specTotalLength lt - i + specTotalLength rt = w + specTotalLength rt - i
        omega
      · show specCollect (specCollapse (specSplitNode leafMax fuse lt i).1).root ++
            specCollect (specCollapse (specConcat leafMax fuse (specSplitNode leafMax fuse lt i).2
              (specRopeOf rt))).root = specCollect lt ++ specCollect rt
        rw [a3, b3, cc, ← List.append_assoc, hc]
        rfl
    · rw [if_neg hiw]
      obtain ⟨v1, v2, l1, l2, hc⟩ := ihr (i - w) hr (by omega)
      obtain ⟨cv, cl, cc⟩ := specConcat_valid leafMax fuse (specRopeOf lt)
        (specSplitNode leafMax fuse rt (i - w)).1 (specRopeOf_valid hl) v1
      obtain ⟨a1, a2, a3⟩ := specCollapse_valid _ cv
      obtain ⟨b1, b2, b3⟩ := specCollapse_valid _ v2
      refine ⟨a1, b1, ?_, ?_, ?_⟩
      · show (specCollapse (specConcat leafMax fuse (specRopeOf lt)
            (specSplitNode leafMax fuse rt (i - w)).1)).length = i
        rw [a2, cl, l1]
        show specTotalLength lt + (i - w) = i
        omega
      · show (specCollapse (specSplitNode leafMax fuse rt (i - w)).2).length =
            w + specTotalLength rt - i
        rw [b2, l2]
        omega
      · show specCollect (specCollapse (specConcat leafMax fuse (specRopeOf lt)
              (specSplitNode leafMax fuse rt (i - w)).1)).root ++
            specCollect (specCollapse (specSplitNode leafMax fuse rt (i - w)).2).root =
            specCollect lt ++ specCollect rt
        rw [a3, b3, cc, List.append_assoc, hc]
        rfl

/-- Claim C11 (split/concat inverse), on the operations as the specification defines them:
for every valid rope `r` and every `i` with `0 ≤ i ≤ length(r)`, `split(r, i)` succeeds with
a pair `(a, b)` of valid ropes such that `length(a) = i`, `length(b) = length(r) - i`, `a`
holds the first `i` characters of `r` and `b` the others, and `concat(a, b)` is a valid rope
of the length of `r` with `collect(concat(a, b)) = collect(r)`; for every `LEAF_MAX` and
with or without leaf fusion. -/
theorem specSplit_concat_inverse (leafMax : Nat) (fuse : Bool) (r : SpecRope) (i : Int)
    (hr : SpecValid r) (h0 : 0 ≤ i) (hi : i ≤ (r.length : Int)) :
    ∃ a b, specSplit leafMax fuse r i = Except.ok (a, b) ∧
      SpecValid a ∧ SpecValid b ∧
      (a.length : Int) = i ∧ (b.length : Int) = (r.length : Int) - i ∧
      specCollect a.root = (specCollect r.root).take i.toNat ∧
      specCollect b.root = (specCollect r.root).drop i.toNat ∧
      SpecValid (specConcat leafMax fuse a b) ∧
      (specConcat leafMax fuse a b).length = r.length ∧
      specCollect (specConcat leafMax fuse a b).root = specCollect r.root := by
  have hn : i.toNat ≤ specTotalLength r.root := by
    rw [← hr.2]
    omega
  obtain ⟨v1, v2, l1, l2, hc⟩ := specSplitNode_valid leafMax fuse r.root i.toNat hr.1 hn
  obtain ⟨cv, cl, cc⟩ := specConcat_valid leafMax fuse _ _ v1 v2
  have hlen : (specCollect (specSplitNode leafMax fuse r.root i.toNat).1.root).length =
      i.toNat := by
    rw [specValid_collect_length v1, l1]
  refine ⟨(specSplitNode leafMax fuse r.root i.toNat).1,
    (specSplitNode leafMax fuse r.root i.toNat).2, ?_, v1, v2, ?_, ?_, ?_, ?_, cv, ?_, ?_⟩
  · unfold specSplit
    rw [if_pos ⟨h0, hi⟩]
  · rw [l1]
    omega
  · rw [l2, ← hr.2]
    omega
  · rw [← hc]
    exact (List.take_left' hlen).symm
  · rw [← hc]
    exact (List.drop_left' hlen).symm
  · rw [cl, l1, l2, hr.2]
    omega
  · rw [cc, hc]

/-- Witness of `specSplit_concat_inverse`: the rope of the leaves `"Hi "` and `"This"`,
split at `i = 2`, with `LEAF_MAX = 4` and leaf fusion on: the pieces hold `"Hi"` and
`" This"`. -/
theorem specSplit_concat_inverse_witness :
    ∃ a b, specSplit 4 true
        ⟨SpecNode.internal (SpecNode.leaf ['H', 'i', ' '] 3) (SpecNode.leaf ['T', 'h', 'i', 's'] 4)
          3 1, 7⟩ 2 = Except.ok (a, b) ∧
      SpecValid a ∧ SpecValid b ∧
      (a.length : Int) = 2 ∧ (b.length : Int) = ((7 : Nat) : Int) - 2 ∧
      specCollect a.root = ['H', 'i'] ∧
      specCollect b.root = [' ', 'T', 'h', 'i', 's'] ∧
      SpecValid (specConcat 4 true a b) ∧
      (specConcat 4 true a b).length = 7 ∧
      specCollect (specConcat 4 true a b).root = ['H', 'i', ' ', 'T', 'h', 'i', 's'] :=
  specSplit_concat_inverse 4 true
    ⟨SpecNode.internal (SpecNode.leaf ['H', 'i', ' '] 3) (SpecNode.leaf ['T', 'h', 'i', 's'] 4)
      3 1, 7⟩ 2 ⟨⟨rfl, rfl, rfl⟩, rfl⟩ (by decide) (by decide)

end RopeC
